import Mathlib

/-!
Verification of the ensemble-construction algorithm of the `ContractableBOSS`
time-series classifier (`sktime/classification/dictionary_based/_cboss.py`).

The Python code is shallowly embedded: rationals stand for Python floats,
`pyInt` models Python's `int()` truncation toward zero, `pyRange` models
`range(start, stop, step)`, and the stateful `_fit` search loop is an explicit
fuel-based state machine (`fitLoopGo`).  Randomness (`check_random_state`),
the external `IndividualBOSS` base learner, and the wall clock (`time.time`)
are abstracted into an environment of oracle functions (`Env`, `timeOracle`):
the embedded code consumes their values exactly where the source consumes
`rng.randint`, `rng.choice`, `boss._train_predict` and elapsed time.
-/

deriving instance DecidableEq for Except

namespace CBoss

attribute [local semireducible] Rat.mul Rat.add Rat.sub Rat.inv Rat.ofScientific

/-- Python's `int()` conversion applied to a float/rational: truncation toward
zero (floor for nonnegative arguments, ceiling for negative ones). -/
def pyInt (q : ℚ) : ℤ := if 0 ≤ q then ⌊q⌋ else ⌈q⌉

/-- Python's `range(start, stop, step)` over naturals, for `step ≥ 1`. -/
def pyRange (start stop step : ℕ) : List ℕ :=
  (List.range ((stop - start + step - 1) / step)).map (fun k => start + k * step)

/-- The list `self.word_lengths = [16, 14, 12, 10, 8]` from `__init__`. -/
def wordLengths : List ℕ := [16, 14, 12, 10, 8]

/-- The list `self.norm_options = [True, False]` from `__init__`. -/
def normOptions : List Bool := [true, false]

/-- A candidate parameter tuple `[win_size, word_len, normalise]`. -/
abbrev Param := ℕ × ℕ × Bool

/-- Source `_unique_parameters(max_window, win_inc)`: the cross product
`normalise × window × word length`, windows ranging over
`range(min_window, max_window + 1, win_inc)`. -/
def uniqueParameters (minWindow : ℕ) (maxWindow : ℤ) (winInc : ℕ) : List Param :=
  normOptions.flatMap fun normalise =>
    (pyRange minWindow (maxWindow + 1).toNat winInc).flatMap fun winSize =>
      wordLengths.map fun wordLen => (winSize, wordLen, normalise)

/-!
## `_individual_train_acc` (lines 368–395)

`pred i` is `boss._train_predict(i)` (the leave-one-out prediction of the
`i`-th subsample instance) and `y i` is `y_subsample[i]`.  The sequential
branch short-circuits with the sentinel `-1`; the parallel branch
(`n_jobs > 1`) first computes every prediction, then applies the same
abandonment inequality instance by instance.  The loop is written with
explicit fuel `S - i` so that it is structurally recursive and executable.
-/

/-- Sequential loop of `_individual_train_acc`: at each remaining instance,
first test `correct + train_size - i < required_correct` and abandon with
`none` (the `-1` sentinel), else evaluate the leave-one-out prediction and
count a match. -/
def seqAccGo (pred y : ℕ → ℕ) (S : ℕ) (req : ℤ) : ℕ → ℕ → ℕ → Option ℕ
  | 0, _, correct => some correct
  | fuel + 1, i, correct =>
    if (correct : ℤ) + ((S : ℤ) - (i : ℤ)) < req then none
    else seqAccGo pred y S req fuel (i + 1)
      (correct + if pred i = y i then 1 else 0)

/-- Source `_individual_train_acc` with `n_jobs <= 1`. -/
def individualTrainAccSeq (pred y : ℕ → ℕ) (S : ℕ) (lowestAcc : ℚ) : ℚ :=
  match seqAccGo pred y S (pyInt (lowestAcc * (S : ℚ))) S 0 0 with
  | none => -1
  | some c => (c : ℚ) / (S : ℚ)

/-- Parallel loop of `_individual_train_acc`: all predictions are already in
the list `c`; the abandonment inequality is applied before accepting each
instance's contribution. -/
def parAccGo (c : List ℕ) (y : ℕ → ℕ) (S : ℕ) (req : ℤ) : ℕ → ℕ → ℕ → Option ℕ
  | 0, _, correct => some correct
  | fuel + 1, i, correct =>
    if (correct : ℤ) + ((S : ℤ) - (i : ℤ)) < req then none
    else parAccGo c y S req fuel (i + 1)
      (correct + if c.getD i 0 = y i then 1 else 0)

/-- Source `_individual_train_acc` with `n_jobs > 1`: every leave-one-out prediction
is computed unconditionally (`Parallel(...)` over `range(train_size)`), then
the abandonment check runs over the collected list. -/
def individualTrainAccPar (pred y : ℕ → ℕ) (S : ℕ) (lowestAcc : ℚ) : ℚ :=
  let c := (List.range S).map pred
  match parAccGo c y S (pyInt (lowestAcc * (S : ℚ))) S 0 0 with
  | none => -1
  | some k => (k : ℚ) / (S : ℚ)

/-- Source `_individual_train_acc`, dispatching on `self.n_jobs > 1`. -/
def individualTrainAcc (nJobs : ℤ) (pred y : ℕ → ℕ) (S : ℕ) (lowestAcc : ℚ) : ℚ :=
  if nJobs > 1 then individualTrainAccPar pred y S lowestAcc
  else individualTrainAccSeq pred y S lowestAcc

/-- Number of correct leave-one-out predictions among instances `0 .. i-1`:
the value of the running counter `correct` just before instance `i`. -/
def looCorrect (pred y : ℕ → ℕ) (i : ℕ) : ℕ :=
  (List.range i).countP fun j => pred j == y j

lemma looCorrect_zero (pred y : ℕ → ℕ) : looCorrect pred y 0 = 0 := rfl

lemma looCorrect_succ (pred y : ℕ → ℕ) (i : ℕ) :
    looCorrect pred y (i + 1) =
      looCorrect pred y i + if pred i = y i then 1 else 0 := by
  simp [looCorrect, List.range_succ, List.countP_append, List.countP_cons]

/-- Input/output behaviour of the sequential abandonment loop: starting at
instance `i` with the true running count, it abandons exactly when some later
checkpoint violates the threshold inequality, and otherwise completes with the
total count. -/
lemma seqAccGo_spec (pred y : ℕ → ℕ) (S : ℕ) (req : ℤ) :
    ∀ (fuel i : ℕ), i + fuel = S →
      seqAccGo pred y S req fuel i (looCorrect pred y i) =
        if ∃ j ∈ Finset.Ico i S,
            (looCorrect pred y j : ℤ) + ((S : ℤ) - (j : ℤ)) < req
        then none
        else some (looCorrect pred y S) := by
  intro fuel
  induction fuel with
  | zero =>
    intro i hi
    simp only [Nat.add_zero] at hi
    subst hi
    simp [seqAccGo, Finset.Ico_self]
  | succ fuel ih =>
    intro i hi
    have hiS : i < S := by omega
    by_cases hP : (looCorrect pred y i : ℤ) + ((S : ℤ) - (i : ℤ)) < req
    · have hex : ∃ j ∈ Finset.Ico i S,
          (looCorrect pred y j : ℤ) + ((S : ℤ) - (j : ℤ)) < req :=
        ⟨i, Finset.mem_Ico.2 ⟨le_refl i, hiS⟩, hP⟩
      rw [if_pos hex]
      simp [seqAccGo, hP]
    · have hstep : seqAccGo pred y S req (fuel + 1) i (looCorrect pred y i) =
          seqAccGo pred y S req fuel (i + 1) (looCorrect pred y (i + 1)) := by
        rw [looCorrect_succ]
        simp [seqAccGo, hP]
      rw [hstep, ih (i + 1) (by omega)]
      have hiff : (∃ j ∈ Finset.Ico (i + 1) S,
            (looCorrect pred y j : ℤ) + ((S : ℤ) - (j : ℤ)) < req) ↔
          (∃ j ∈ Finset.Ico i S,
            (looCorrect pred y j : ℤ) + ((S : ℤ) - (j : ℤ)) < req) := by
        constructor
        · rintro ⟨j, hj, hjP⟩
          refine ⟨j, ?_, hjP⟩
          rw [Finset.mem_Ico] at hj ⊢
          omega
        · rintro ⟨j, hj, hjP⟩
          rw [Finset.mem_Ico] at hj
          rcases Nat.eq_or_lt_of_le hj.1 with h | h
          · exact absurd (h ▸ hjP) hP
          · exact ⟨j, Finset.mem_Ico.2 ⟨h, hj.2⟩, hjP⟩
      by_cases hex : ∃ j ∈ Finset.Ico i S,
          (looCorrect pred y j : ℤ) + ((S : ℤ) - (j : ℤ)) < req
      · rw [if_pos (hiff.2 hex), if_pos hex]
      · rw [if_neg (fun h => hex (hiff.1 h)), if_neg hex]

/-- The parallel loop over the precomputed prediction list coincides with the
sequential loop pointwise. -/
lemma parAccGo_eq_seqAccGo (pred y : ℕ → ℕ) (S : ℕ) (req : ℤ) :
    ∀ (fuel i correct : ℕ), i + fuel = S →
      parAccGo ((List.range S).map pred) y S req fuel i correct =
        seqAccGo pred y S req fuel i correct := by
  intro fuel
  induction fuel with
  | zero => intro i correct _; rfl
  | succ fuel ih =>
    intro i correct hi
    have hiS : i < S := by omega
    have hgetD : ((List.range S).map pred).getD i 0 = pred i := by
      rw [List.getD_eq_getElem?_getD, List.getElem?_map, List.getElem?_range hiS]
      rfl
    simp only [parAccGo, seqAccGo, hgetD]
    by_cases hP : (correct : ℤ) + ((S : ℤ) - (i : ℤ)) < req
    · simp [hP]
    · simp only [if_neg hP]
      exact ih (i + 1) _ (by omega)

/-- C1.  For a sequentially scored candidate (`n_jobs <= 1`) with nonnegative
threshold `lowestAcc` (the values the fit loop passes are `0` or a retained
accuracy in `[0, 1]`), the leave-one-out estimation computes
`required_correct = ⌊lowestAcc * S⌋`, returns the sentinel `-1` exactly when
some instance `i < S` is reached with `correct + (S - i) < required_correct`
(where `correct = looCorrect pred y i` is the running count before instance
`i`), and otherwise completes all `S` instances and returns `correct / S`. -/
theorem C1_sequential_accuracy (pred y : ℕ → ℕ) (S : ℕ) (lowestAcc : ℚ)
    (h : 0 ≤ lowestAcc) :
    individualTrainAccSeq pred y S lowestAcc =
      if ∃ i ∈ Finset.range S,
          (looCorrect pred y i : ℤ) + ((S : ℤ) - (i : ℤ)) < ⌊lowestAcc * (S : ℚ)⌋
      then -1
      else (looCorrect pred y S : ℚ) / (S : ℚ) := by
  have hreq : pyInt (lowestAcc * (S : ℚ)) = ⌊lowestAcc * (S : ℚ)⌋ :=
    if_pos (mul_nonneg h (Nat.cast_nonneg S))
  have h0 : (0 : ℕ) = looCorrect pred y 0 := rfl
  have := seqAccGo_spec pred y S (pyInt (lowestAcc * (S : ℚ))) S 0 (by omega)
  rw [looCorrect_zero] at this
  rw [individualTrainAccSeq, this, hreq]
  have hIco : Finset.Ico 0 S = Finset.range S := (Finset.range_eq_Ico).symm ▸ rfl
  rw [hIco]
  by_cases hex : ∃ i ∈ Finset.range S,
      (looCorrect pred y i : ℤ) + ((S : ℤ) - (i : ℤ)) < ⌊lowestAcc * (S : ℚ)⌋
  · rw [if_pos hex, if_pos hex]
  · rw [if_neg hex, if_neg hex]

/-- C1 witness: `S = 4`, `lowestAcc = 9/10`, one early mismatch: the
threshold `required_correct = 3` becomes unreachable before instance 3, so
the sequential path abandons with `-1`. -/
theorem C1_sequential_accuracy_witness :
    individualTrainAccSeq (fun _ => 0) (fun j => if j = 0 then 0 else 1) 4 (9 / 10) =
      if ∃ i ∈ Finset.range 4,
          (looCorrect (fun _ => 0) (fun j => if j = 0 then 0 else 1) i : ℤ)
              + ((4 : ℤ) - (i : ℤ)) < ⌊(9 / 10 : ℚ) * ((4 : ℕ) : ℚ)⌋
      then -1
      else (looCorrect (fun _ => 0) (fun j => if j = 0 then 0 else 1) 4 : ℚ) / ((4 : ℕ) : ℚ) :=
  C1_sequential_accuracy (fun _ => 0) (fun j => if j = 0 then 0 else 1) 4 (9 / 10)
    (by norm_num)

/-- C3.  The parallel accuracy-estimation path (`n_jobs > 1`, which computes
every leave-one-out prediction unconditionally and then applies the
abandonment inequality instance by instance) returns exactly the same value
as the sequential path, for every learner, label vector, subsample size and
threshold: the same `-1` sentinel in the same cases, the same `correct / S`
otherwise. -/
theorem C3_parallel_refines_sequential (pred y : ℕ → ℕ) (S : ℕ) (lowestAcc : ℚ) :
    individualTrainAccPar pred y S lowestAcc =
      individualTrainAccSeq pred y S lowestAcc := by
  rw [individualTrainAccPar, individualTrainAccSeq,
    parAccGo_eq_seqAccGo pred y S (pyInt (lowestAcc * (S : ℚ))) S 0 0 (by omega)]

/-!
## Ensemble maintenance (`_fit` lines 248–262, `_worst_ensemble_acc`)
-/

/-- A trained `IndividualBOSS` as the ensemble sees it: its parameter tuple,
the subsample it was trained on (`boss.subsample`), and its estimated
accuracy (`boss.accuracy`). -/
structure Member where
  params : Param
  subsample : List ℕ
  accuracy : ℚ
deriving DecidableEq

instance : Inhabited Member := ⟨⟨(0, 0, false), [], 0⟩⟩

/-- Lines 248–251: `weight = accuracy ** 4` if the accuracy is positive, else
the floor constant `0.000000001`. -/
def weightOf (acc : ℚ) : ℚ := if acc > 0 then acc ^ 4 else 1 / 1000000000

/-- Scan loop of `_worst_ensemble_acc`: running minimum starts at `1.0` with
index `-1`; a strictly smaller accuracy updates both. -/
def worstAccGo : List ℚ → ℚ → ℤ → ℤ → ℚ × ℤ
  | [], minAcc, minIdx, _ => (minAcc, minIdx)
  | a :: rest, minAcc, minIdx, c =>
    if a < minAcc then worstAccGo rest a c (c + 1)
    else worstAccGo rest minAcc minIdx (c + 1)

/-- Source `_worst_ensemble_acc` over the retained accuracies. -/
def worstEnsembleAcc (accs : List ℚ) : ℚ × ℤ := worstAccGo accs 1 (-1) 0

/-- Python list assignment `l[i] = a`, including negative-index semantics
(`l[-k]` addresses `len(l) - k`). -/
def pySet (l : List α) (i : ℤ) (a : α) : List α :=
  if 0 ≤ i then l.set i.toNat a else l.set (l.length - (-i).toNat) a

/-- The mutable ensemble state of `_fit`: parallel lists
`self.classifiers` / `self.weights` plus the tracked worst accuracy and its
position (`lowest_acc = 1`, `lowest_acc_idx = 0` initially). -/
structure EnsState where
  classifiers : List Member
  weights : List ℚ
  lowestAcc : ℚ
  lowestIdx : ℤ
deriving DecidableEq

/-- Lines 248–262 of `_fit`: compute the candidate's weight; during warm-up
(`num_classifiers < max_ensemble_size`) append it and track the running
minimum; once full, replace the member at `lowest_acc_idx` when the candidate
strictly beats `lowest_acc`, then rescan with `_worst_ensemble_acc`. -/
def ensembleStep (maxEnsembleSize numClassifiers : ℕ) (st : EnsState)
    (m : Member) : EnsState :=
  let weight := weightOf m.accuracy
  if numClassifiers < maxEnsembleSize then
    { classifiers := st.classifiers ++ [m]
      weights := st.weights ++ [weight]
      lowestAcc := if m.accuracy < st.lowestAcc then m.accuracy else st.lowestAcc
      lowestIdx :=
        if m.accuracy < st.lowestAcc then (numClassifiers : ℤ) else st.lowestIdx }
  else if m.accuracy > st.lowestAcc then
    let classifiers' := pySet st.classifiers st.lowestIdx m
    let weights' := pySet st.weights st.lowestIdx weight
    let scan := worstEnsembleAcc (classifiers'.map Member.accuracy)
    { classifiers := classifiers', weights := weights',
      lowestAcc := scan.1, lowestIdx := scan.2 }
  else st

/-!
## The search loop of `_fit` (lines 208–269)
-/

/-- The oracles the loop consumes: `pick num` is the `rng.randint` draw of
iteration `num`, `sub num` the `rng.choice` subsample, `pred p s i` the
trained learner's leave-one-out prediction (`boss._train_predict(i)`) for
parameters `p` and subsample `s`, and `y` the training labels (already mapped
to class indices). -/
structure Env where
  pick : ℕ → ℕ
  sub : ℕ → List ℕ
  pred : Param → List ℕ → ℕ → ℕ
  y : ℕ → ℕ

/-- The `while` loop of `_fit`: continue while
`(train_time < time_limit or num_classifiers < n_parameter_samples)` and the
parameter grid is nonempty; each iteration pops a random candidate, draws a
subsample, scores the trained learner with `_individual_train_acc`
(threshold `0` during warm-up, else `lowest_acc`), updates the ensemble, and
refreshes `train_time` from the wall clock.  Fuel is the grid size, which the
loop strictly decreases.  Returns the final state, the number of candidates
tried, and the number of unused grid entries. -/
def fitLoopGo (env : Env) (timeOracle : ℕ → ℚ) (nJobs : ℤ) (timeLimit : ℚ)
    (target maxEnsembleSize subsampleSize : ℕ) :
    ℕ → List Param → EnsState → ℕ → ℚ → EnsState × ℕ × ℕ
  | 0, grid, st, num, _ => (st, num, grid.length)
  | fuel + 1, grid, st, num, t =>
    if (t < timeLimit ∨ num < target) ∧ grid ≠ [] then
      let idx := env.pick num % grid.length
      let param := grid.getD idx (0, 0, false)
      let grid' := grid.eraseIdx idx
      let subsample := env.sub num
      let acc := individualTrainAcc nJobs (env.pred param subsample)
        (fun i => env.y (subsample.getD i 0)) subsampleSize
        (if num < maxEnsembleSize then 0 else st.lowestAcc)
      fitLoopGo env timeOracle nJobs timeLimit target maxEnsembleSize subsampleSize
        fuel grid' (ensembleStep maxEnsembleSize num st ⟨param, subsample, acc⟩)
        (num + 1) (timeOracle (num + 1))
    else (st, num, grid.length)

/-- What `_fit` leaves on `self` (restricted to the fields the claims are
about), plus the iteration count and leftover grid size. -/
structure FitResult where
  classifiers : List Member
  weights : List ℚ
  weightSum : ℚ
  nEstimators : ℕ
  numTried : ℕ
  gridRemaining : ℕ
deriving DecidableEq

/-- Source `_fit` (lines 182–269): window bounds and increment, the `min_window`
validation, grid construction, the `time_limit > 0` override forcing
`n_parameter_samples = 0`, the search loop, and the final
`weight_sum = np.sum(weights)`. -/
def cbossFit (env : Env) (timeOracle : ℕ → ℚ) (nJobs : ℤ)
    (nParameterSamples maxEnsembleSize : ℕ) (maxWinLenProp : ℚ) (minWindow : ℕ)
    (timeLimitInMinutes : ℚ) (nInstances seriesLength : ℕ) :
    Except String FitResult :=
  let timeLimit := timeLimitInMinutes * 60
  let maxWindow : ℤ := pyInt ((seriesLength : ℚ) * maxWinLenProp)
  let maxWindowSearches : ℚ := (seriesLength : ℚ) / 4
  let winInc0 := pyInt (((maxWindow : ℚ) - (minWindow : ℚ)) / maxWindowSearches)
  let winInc := if winInc0 < 1 then 1 else winInc0
  if (minWindow : ℤ) > maxWindow + 1 then
    Except.error "Error in ContractableBOSS, min_window is bigger than max_window"
  else
    let possibleParameters := uniqueParameters minWindow maxWindow winInc.toNat
    let subsampleSize := (pyInt ((nInstances : ℚ) * (7 / 10))).toNat
    let target := if timeLimit > 0 then 0 else nParameterSamples
    let res := fitLoopGo env timeOracle nJobs timeLimit target maxEnsembleSize
      subsampleSize possibleParameters.length possibleParameters
      ⟨[], [], 1, 0⟩ 0 0
    Except.ok
      { classifiers := res.1.classifiers
        weights := res.1.weights
        weightSum := res.1.weights.sum
        nEstimators := res.1.classifiers.length
        numTried := res.2.1
        gridRemaining := res.2.2 }

/-- Extract the `ok` payload of a fit outcome (fallback for the error case). -/
def okOr (d : FitResult) : Except String FitResult → FitResult
  | Except.ok r => r
  | Except.error _ => d

/-- The empty fit result, used as `okOr` fallback. -/
def emptyFit : FitResult := ⟨[], [], 0, 0, 0, 0⟩

/-- A concrete environment for witnesses: the rng always draws index 0, every
subsample is `[0, 1]`, the learner always predicts class 0, and every label
is class 0 (so every completed accuracy estimate is exactly 1). -/
def constEnv : Env := ⟨fun _ => 0, fun _ => [0, 1], fun _ _ _ => 0, fun _ => 0⟩

/-!
## Prediction aggregation (`_predict_proba` lines 292–313,
`_get_train_probs` lines 336–366)
-/

/-- One `sums[..., class] += weight` update. -/
def bucketAdd (sums : ℕ → ℚ) (c : ℕ) (w : ℚ) : ℕ → ℚ :=
  fun j => if j = c then sums j + w else sums j

/-- Per-class weight buckets accumulated from `(predicted class, weight)`
contributions, starting from the zero array. -/
def classBuckets (contribs : List (ℕ × ℚ)) : ℕ → ℚ :=
  contribs.foldl (fun sums pw => bucketAdd sums pw.1 pw.2) (fun _ => 0)

/-- One row of `_predict_proba`: each retained classifier's predicted class
for the instance (`preds`), paired with its weight, accumulated into class
buckets and divided elementwise by `self.weight_sum` — with no guard on a
zero weight sum. -/
def predictProbaRow (nClasses : ℕ) (preds : List ℕ) (weights : List ℚ)
    (weightSum : ℚ) : List ℚ :=
  (List.range nClasses).map fun c => classBuckets (preds.zip weights) c / weightSum

/-- Lookup `self.class_dictionary.get(pred, -1)` used as an index into `sums`:
a known class maps to its own index, anything else addresses `sums[-1]`,
i.e. the last class. -/
def dictGet (nClasses pred : ℕ) : ℕ := if pred < nClasses then pred else nClasses - 1

/-- Source `_get_train_probs` member selection for instance `i`: the retained
classifiers (with their positions) whose subsample contains `i`, each paired
with the first position of `i` inside that subsample
(`np.where(clf.subsample == i)[0][0]`). -/
def clfIdx (subsamples : List (List ℕ)) (i : ℕ) : List (ℕ × ℕ) :=
  (subsamples.enum.filter fun p => i ∈ p.2).map fun p => (p.1, p.2.indexOf i)

/-- The contributions `(class bucket, weight)` accumulated for instance `i`:
each selected member's leave-one-out prediction routed through the class
dictionary, paired with that member's weight. -/
def trainContribs (nClasses : ℕ) (subsamples : List (List ℕ)) (weights : List ℚ)
    (loo : ℕ → ℕ → ℕ) (i : ℕ) : List (ℕ × ℚ) :=
  (clfIdx subsamples i).map fun c => (dictGet nClasses (loo c.1 c.2), weights.getD c.1 0)

/-- The `divisor` accumulated for instance `i`: the weights of exactly the
selected members. -/
def trainDivisor (subsamples : List (List ℕ)) (weights : List ℚ) (i : ℕ) : ℚ :=
  ((clfIdx subsamples i).map fun c => weights.getD c.1 0).sum

/-- One row of `_get_train_probs` for training instance `i`: the uniform
distribution when `divisor == 0`, else buckets divided by the divisor. -/
def trainProbRow (nClasses : ℕ) (subsamples : List (List ℕ)) (weights : List ℚ)
    (loo : ℕ → ℕ → ℕ) (i : ℕ) : List ℚ :=
  if trainDivisor subsamples weights i = 0 then
    (List.range nClasses).map fun _ => 1 / (nClasses : ℚ)
  else
    (List.range nClasses).map fun c =>
      classBuckets (trainContribs nClasses subsamples weights loo i) c
        / trainDivisor subsamples weights i

lemma foldl_bucketAdd (l : List (ℕ × ℚ)) :
    ∀ (sums : ℕ → ℚ) (c : ℕ),
      (l.foldl (fun sums pw => bucketAdd sums pw.1 pw.2) sums) c =
        sums c + (l.map fun pw => if pw.1 = c then pw.2 else 0).sum := by
  induction l with
  | nil => intro sums c; simp
  | cons p l ih =>
    intro sums c
    rw [List.foldl_cons, ih]
    by_cases h : p.1 = c
    · simp [bucketAdd, h, add_assoc]
    · have h' : ¬ c = p.1 := fun hc => h hc.symm
      simp [bucketAdd, h, h']

lemma classBuckets_apply (l : List (ℕ × ℚ)) (c : ℕ) :
    classBuckets l c = (l.map fun pw => if pw.1 = c then pw.2 else 0).sum := by
  rw [classBuckets, foldl_bucketAdd]
  simp

lemma classBuckets_cons (p : ℕ × ℚ) (l : List (ℕ × ℚ)) (c : ℕ) :
    classBuckets (p :: l) c = (if p.1 = c then p.2 else 0) + classBuckets l c := by
  rw [classBuckets_apply, classBuckets_apply, List.map_cons, List.sum_cons]

lemma sum_map_range (f : ℕ → ℚ) (n : ℕ) :
    ((List.range n).map f).sum = ∑ c ∈ Finset.range n, f c := by
  induction n with
  | zero => rfl
  | succ n ih =>
    rw [List.range_succ, List.map_append, List.sum_append, Finset.sum_range_succ, ih]
    simp

lemma getD_map_range {α : Type} (f : ℕ → α) (d : α) (n c : ℕ) (h : c < n) :
    ((List.range n).map f).getD c d = f c := by
  rw [List.getD_eq_getElem?_getD, List.getElem?_map, List.getElem?_range h]
  rfl

/-- The buckets of a contribution list whose classes all lie below `n`
redistribute its total weight: summed over the `n` classes they give back the
sum of the weights. -/
lemma sum_classBuckets (n : ℕ) (l : List (ℕ × ℚ)) (h : ∀ pw ∈ l, pw.1 < n) :
    ∑ c ∈ Finset.range n, classBuckets l c = (l.map Prod.snd).sum := by
  induction l with
  | nil => simp [classBuckets]
  | cons p l ih =>
    have hp : p.1 < n := h p (List.mem_cons_self p l)
    have hrest : ∀ pw ∈ l, pw.1 < n := fun pw hpw => h pw (List.mem_cons_of_mem p hpw)
    calc ∑ c ∈ Finset.range n, classBuckets (p :: l) c
        = ∑ c ∈ Finset.range n, ((if p.1 = c then p.2 else 0) + classBuckets l c) :=
          Finset.sum_congr rfl fun c _ => classBuckets_cons p l c
      _ = (∑ c ∈ Finset.range n, if p.1 = c then p.2 else 0)
            + ∑ c ∈ Finset.range n, classBuckets l c := Finset.sum_add_distrib
      _ = p.2 + (l.map Prod.snd).sum := by
          rw [ih hrest, Finset.sum_ite_eq, if_pos (Finset.mem_range.2 hp)]
      _ = ((p :: l).map Prod.snd).sum := by simp

/-- C6.  For every fitted ensemble whose stored weight sum is nonzero, every
`_predict_proba` row is the per-class accumulation of each retained member's
weight into its predicted class, divided elementwise by the stored weight
sum; and since the stored weight sum equals the sum of the retained weights,
the row sums to exactly 1. -/
theorem C6_predict_proba_row (nClasses : ℕ) (preds : List ℕ) (weights : List ℚ)
    (weightSum : ℚ) (hws : weightSum = weights.sum)
    (hlen : preds.length = weights.length)
    (hcls : ∀ p ∈ preds, p < nClasses) (hne : weightSum ≠ 0) :
    (∀ c, c < nClasses →
        (predictProbaRow nClasses preds weights weightSum).getD c 0 =
          classBuckets (preds.zip weights) c / weightSum)
    ∧ (predictProbaRow nClasses preds weights weightSum).sum = 1 := by
  constructor
  · intro c hc
    exact getD_map_range _ 0 nClasses c hc
  · have hmem : ∀ pw ∈ preds.zip weights, pw.1 < nClasses := by
      rintro ⟨p, w⟩ hpw
      exact hcls p (List.of_mem_zip hpw).1
    have hsnd : (preds.zip weights).map Prod.snd = weights :=
      List.map_snd_zip preds weights (le_of_eq hlen.symm)
    rw [predictProbaRow, sum_map_range, ← Finset.sum_div,
      sum_classBuckets nClasses _ hmem, hsnd, ← hws, div_self hne]

/-- C6 witness: two classes, members predicting classes `[0, 1, 0]` with
weights `[1/2, 1/4, 1/4]` and stored weight sum `1`: the first row entry is
`3/4` and the row sums to `1`. -/
theorem C6_predict_proba_row_witness :
    (predictProbaRow 2 [0, 1, 0] [1/2, 1/4, 1/4] 1).getD 0 0 =
        classBuckets ([0, 1, 0].zip [1/2, 1/4, 1/4]) 0 / 1
      ∧ (predictProbaRow 2 [0, 1, 0] [1/2, 1/4, 1/4] 1).sum = 1 :=
  ⟨(C6_predict_proba_row 2 [0, 1, 0] [1/2, 1/4, 1/4] 1 (by norm_num) (by decide)
      (by decide) (by norm_num)).1 0 (by decide),
   (C6_predict_proba_row 2 [0, 1, 0] [1/2, 1/4, 1/4] 1 (by norm_num) (by decide)
      (by decide) (by norm_num)).2⟩

lemma mem_clfIdx_iff (subsamples : List (List ℕ)) (i : ℕ) (c : ℕ × ℕ) :
    c ∈ clfIdx subsamples i ↔
      ∃ sub, subsamples[c.1]? = some sub ∧ i ∈ sub ∧ c.2 = sub.indexOf i := by
  constructor
  · intro hc
    rcases List.mem_map.1 hc with ⟨p, hpf, hpe⟩
    rcases List.mem_filter.1 hpf with ⟨hpenum, hpi⟩
    have hpi' : i ∈ p.2 := of_decide_eq_true hpi
    have hget : subsamples[p.1]? = some p.2 := List.mem_enum_iff_getElem?.1 hpenum
    refine ⟨p.2, ?_, hpi', ?_⟩
    · rw [← hpe]; exact hget
    · rw [← hpe]
  · rintro ⟨sub, hget, hi, hidx⟩
    refine List.mem_map.2 ⟨(c.1, sub), List.mem_filter.2 ⟨?_, ?_⟩, ?_⟩
    · exact List.mem_enum_iff_getElem?.2 hget
    · exact decide_eq_true hi
    · simp [← hidx]

/-- C7.  A `_get_train_probs` row for instance `i` is exactly the uniform
distribution when no retained member's subsample contains `i`; the members
contributing are exactly those whose subsample contains `i`; and when some
member does contain `i` (and, as `_fit` guarantees, every weight is
positive), the divisor is positive and the row is the per-class weight
accumulation over those members divided by the sum of their weights. -/
theorem C7_train_probs (nClasses : ℕ) (subsamples : List (List ℕ))
    (weights : List ℚ) (loo : ℕ → ℕ → ℕ) (i : ℕ) :
    ((∀ sub ∈ subsamples, i ∉ sub) →
      trainProbRow nClasses subsamples weights loo i =
        (List.range nClasses).map fun _ => 1 / (nClasses : ℚ))
    ∧ (∀ n : ℕ, (∃ li, (n, li) ∈ clfIdx subsamples i) ↔
        ∃ sub, subsamples[n]? = some sub ∧ i ∈ sub)
    ∧ (subsamples.length = weights.length → (∀ w ∈ weights, 0 < w) →
      (∃ sub ∈ subsamples, i ∈ sub) →
      0 < trainDivisor subsamples weights i ∧
      trainProbRow nClasses subsamples weights loo i =
        (List.range nClasses).map fun c =>
          classBuckets (trainContribs nClasses subsamples weights loo i) c
            / trainDivisor subsamples weights i) := by
  refine ⟨?_, ?_, ?_⟩
  · intro hnone
    have hempty : clfIdx subsamples i = [] := by
      rcases hc : clfIdx subsamples i with _ | ⟨c, rest⟩
      · rfl
      · exfalso
        have hmem : c ∈ clfIdx subsamples i := by rw [hc]; exact List.mem_cons_self c rest
        rcases (mem_clfIdx_iff subsamples i c).1 hmem with ⟨sub, hget, hi, _⟩
        have hsub : sub ∈ subsamples := List.mem_iff_getElem?.2 ⟨c.1, hget⟩
        exact hnone sub hsub hi
    rw [trainProbRow, if_pos (by rw [trainDivisor, hempty]; rfl)]
  · intro n
    constructor
    · rintro ⟨li, hmem⟩
      rcases (mem_clfIdx_iff subsamples i (n, li)).1 hmem with ⟨sub, hget, hi, _⟩
      exact ⟨sub, hget, hi⟩
    · rintro ⟨sub, hget, hi⟩
      exact ⟨sub.indexOf i,
        (mem_clfIdx_iff subsamples i (n, sub.indexOf i)).2 ⟨sub, hget, hi, rfl⟩⟩
  · intro hlen hpos hsome
    have hne : clfIdx subsamples i ≠ [] := by
      rcases hsome with ⟨sub, hsub, hi⟩
      rcases List.mem_iff_getElem?.1 hsub with ⟨n, hget⟩
      intro hempty
      have : (n, sub.indexOf i) ∈ clfIdx subsamples i :=
        (mem_clfIdx_iff subsamples i (n, sub.indexOf i)).2 ⟨sub, hget, hi, rfl⟩
      rw [hempty] at this
      exact List.not_mem_nil _ this
    have hdiv : 0 < trainDivisor subsamples weights i := by
      apply List.sum_pos
      · intro w hw
        rcases List.mem_map.1 hw with ⟨c, hc, hcw⟩
        rcases (mem_clfIdx_iff subsamples i c).1 hc with ⟨sub, hget, _, _⟩
        have hclen : c.1 < subsamples.length := (List.getElem?_eq_some.1 hget).1
        have hwlen : c.1 < weights.length := by omega
        have : weights.getD c.1 0 = weights[c.1] := by
          rw [List.getD_eq_getElem?_getD, List.getElem?_eq_getElem hwlen]
          rfl
        rw [← hcw, this]
        exact hpos _ (List.getElem_mem hwlen)
      · intro hmapnil
        exact hne (List.map_eq_nil_iff.1 hmapnil)
    exact ⟨hdiv, by rw [trainProbRow, if_neg (ne_of_gt hdiv)]⟩

/-- C7 witness: instance `5` lies in no subsample, so its row is uniform;
instance `0` lies in the first member's subsample, so its divisor is the
positive weight of that member. -/
theorem C7_train_probs_witness :
    trainProbRow 2 [[0, 1], [1, 2]] [1/2, 1/4] (fun _ _ => 0) 5 =
        ((List.range 2).map fun _ => 1 / ((2 : ℕ) : ℚ))
      ∧ 0 < trainDivisor [[0, 1], [1, 2]] [1/2, 1/4] 0 :=
  ⟨(C7_train_probs 2 [[0, 1], [1, 2]] [1/2, 1/4] (fun _ _ => 0) 5).1 (by decide),
   ((C7_train_probs 2 [[0, 1], [1, 2]] [1/2, 1/4] (fun _ _ => 0) 0).2.2 (by decide)
      (by decide) ⟨[0, 1], by decide, by decide⟩).1⟩

lemma worstAccGo_of_none_lt (l : List ℚ) :
    ∀ (minAcc : ℚ) (minIdx c : ℤ), (∀ b ∈ l, ¬ b < minAcc) →
      worstAccGo l minAcc minIdx c = (minAcc, minIdx) := by
  induction l with
  | nil => intro minAcc minIdx c _; rfl
  | cons a rest ih =>
    intro minAcc minIdx c h
    rw [worstAccGo, if_neg (h a (List.mem_cons_self a rest))]
    exact ih minAcc minIdx (c + 1) fun b hb => h b (List.mem_cons_of_mem a hb)

/-- The `_worst_ensemble_acc` scan, whenever some element lies strictly below
the running minimum it starts from, returns the least element of the list and
the offset position of its first occurrence. -/
lemma worstAccGo_min (l : List ℚ) :
    ∀ (minAcc : ℚ) (minIdx c : ℤ), (∃ a ∈ l, a < minAcc) →
      ∃ m, m ∈ l ∧ (∀ b ∈ l, m ≤ b) ∧ m < minAcc ∧
        worstAccGo l minAcc minIdx c = (m, c + (l.indexOf m : ℤ)) := by
  induction l with
  | nil => rintro minAcc minIdx c ⟨a, ha, _⟩; exact absurd ha (List.not_mem_nil a)
  | cons a rest ih =>
    rintro minAcc minIdx c ⟨w, hw, hwlt⟩
    by_cases ha : a < minAcc
    · rw [worstAccGo, if_pos ha]
      by_cases hrest : ∃ b ∈ rest, b < a
      · rcases ih a c (c + 1) hrest with ⟨m, hmem, hle, hlt, heq⟩
        refine ⟨m, List.mem_cons_of_mem a hmem, ?_, lt_trans hlt ha, ?_⟩
        · intro b hb
          rcases List.mem_cons.1 hb with rfl | hb
          · exact le_of_lt hlt
          · exact hle b hb
        · rw [heq, List.indexOf_cons_ne rest (ne_of_gt hlt)]
          have : ((rest.indexOf m).succ : ℤ) = (rest.indexOf m : ℤ) + 1 := by
            push_cast; ring
          rw [this]; ring_nf
      · push_neg at hrest
        refine ⟨a, List.mem_cons_self a rest, ?_, ha, ?_⟩
        · intro b hb
          rcases List.mem_cons.1 hb with rfl | hb
          · exact le_refl b
          · exact hrest b hb
        · rw [worstAccGo_of_none_lt rest a c (c + 1)
            (fun b hb => not_lt.2 (hrest b hb)), List.indexOf_cons_self]
          simp
    · have hw' : w ∈ rest := by
        rcases List.mem_cons.1 hw with rfl | h
        · exact absurd hwlt ha
        · exact h
      rcases ih minAcc minIdx (c + 1) ⟨w, hw', hwlt⟩ with ⟨m, hmem, hle, hlt, heq⟩
      have hma : m < a := lt_of_lt_of_le hlt (not_lt.1 ha)
      refine ⟨m, List.mem_cons_of_mem a hmem, ?_, hlt, ?_⟩
      · intro b hb
        rcases List.mem_cons.1 hb with rfl | hb
        · exact le_of_lt hma
        · exact hle b hb
      · rw [worstAccGo, if_neg ha, heq, List.indexOf_cons_ne rest (ne_of_gt hma)]
        have : ((rest.indexOf m).succ : ℤ) = (rest.indexOf m : ℤ) + 1 := by
          push_cast; ring
        rw [this]; ring_nf

/-- C2 counterexample.  A full ensemble `[accuracy 1, accuracy 9/10]` whose
worst member is replaced by a candidate of accuracy 1 becomes `[1, 1]`: the
recomputation scan (strict `<` against an initial minimum of `1.0`, index
`-1`) then reports position `-1`, not the first (lowest-index) member
attaining the minimum, which is position `0`. -/
theorem C2_counterexample :
    (ensembleStep 2 2
        ⟨[⟨(2, 16, true), [0], 1⟩, ⟨(5, 16, true), [1], 9/10⟩],
         [weightOf 1, weightOf (9/10)], 9/10, 1⟩
        ⟨(8, 16, true), [2], 1⟩).lowestIdx = -1
    ∧ (((ensembleStep 2 2
        ⟨[⟨(2, 16, true), [0], 1⟩, ⟨(5, 16, true), [1], 9/10⟩],
         [weightOf 1, weightOf (9/10)], 9/10, 1⟩
        ⟨(8, 16, true), [2], 1⟩).classifiers.map Member.accuracy).indexOf
          (ensembleStep 2 2
        ⟨[⟨(2, 16, true), [0], 1⟩, ⟨(5, 16, true), [1], 9/10⟩],
         [weightOf 1, weightOf (9/10)], 9/10, 1⟩
        ⟨(8, 16, true), [2], 1⟩).lowestAcc : ℤ) = 0
    ∧ (-1 : ℤ) ≠ (0 : ℤ) := by
  refine ⟨by decide, by decide, by decide⟩

/-- C2 (amended).  Once the ensemble is full (`num ≥ max_ensemble_size`):
a candidate not strictly exceeding the tracked minimum accuracy leaves the
state untouched; one that does overwrites the member and weight at the
minimum's position and recomputes `(lowest_acc, lowest_acc_idx)` with the
`_worst_ensemble_acc` scan; that scan returns the minimum accuracy and the
first (lowest-index) position attaining it whenever some member's accuracy is
strictly below 1 (when every accuracy equals 1 it reports position `-1`
instead, which no later replacement can use since no accuracy exceeds 1).
In the concrete scenario, a sole member of accuracy 3/5 is replaced by a
candidate of accuracy 4/5 and the weight sum becomes exactly `(4/5)^4`. -/
theorem C2_ensemble_replacement (maxSize num : ℕ) (st : EnsState) (m : Member)
    (hfull : maxSize ≤ num) :
    (¬ m.accuracy > st.lowestAcc → ensembleStep maxSize num st m = st)
    ∧ (m.accuracy > st.lowestAcc →
        ensembleStep maxSize num st m =
          { classifiers := pySet st.classifiers st.lowestIdx m
            weights := pySet st.weights st.lowestIdx (weightOf m.accuracy)
            lowestAcc :=
              (worstEnsembleAcc ((pySet st.classifiers st.lowestIdx m).map
                Member.accuracy)).1
            lowestIdx :=
              (worstEnsembleAcc ((pySet st.classifiers st.lowestIdx m).map
                Member.accuracy)).2 })
    ∧ (∀ accs : List ℚ, (∃ a ∈ accs, a < 1) →
        (worstEnsembleAcc accs).1 ∈ accs
        ∧ (∀ b ∈ accs, (worstEnsembleAcc accs).1 ≤ b)
        ∧ (worstEnsembleAcc accs).2 = (accs.indexOf (worstEnsembleAcc accs).1 : ℤ))
    ∧ (ensembleStep 1 1 ⟨[⟨(0, 0, false), [], 3/5⟩], [weightOf (3/5)], 3/5, 0⟩
        ⟨(0, 0, true), [], 4/5⟩).weights.sum = (4/5) ^ 4 := by
  have hnotlt : ¬ num < maxSize := not_lt.2 hfull
  refine ⟨?_, ?_, ?_, by decide⟩
  · intro hle
    rw [ensembleStep, if_neg hnotlt, if_neg hle]
  · intro hgt
    rw [ensembleStep, if_neg hnotlt, if_pos hgt]
  · intro accs hex
    rcases worstAccGo_min accs 1 (-1) 0 hex with ⟨mn, hmem, hle, _, heq⟩
    have h1 : (worstEnsembleAcc accs).1 = mn := by rw [worstEnsembleAcc, heq]
    have h2 : (worstEnsembleAcc accs).2 = (accs.indexOf mn : ℤ) := by
      rw [worstEnsembleAcc, heq]; simp
    exact ⟨h1 ▸ hmem, fun b hb => h1 ▸ hle b hb, by rw [h1, h2]⟩

/-- C2 witness: the amended theorem applied at the concrete full-ensemble
scenario (`max_ensemble_size = 1`, sole member accuracy 3/5, candidate 4/5):
the weight sum becomes exactly `(4/5)^4 = 256/625`. -/
theorem C2_ensemble_replacement_witness :
    (ensembleStep 1 1 ⟨[⟨(0, 0, false), [], 3/5⟩], [weightOf (3/5)], 3/5, 0⟩
        ⟨(0, 0, true), [], 4/5⟩).weights.sum = (4/5) ^ 4 :=
  (C2_ensemble_replacement 1 1
    ⟨[⟨(0, 0, false), [], 3/5⟩], [weightOf (3/5)], 3/5, 0⟩
    ⟨(0, 0, true), [], 4/5⟩ (le_refl 1)).2.2.2

/-- C4 counterexample.  Configuration with both a positive time budget
(1 minute) and a positive candidate target (`n_parameter_samples = 2`), on a
30-candidate grid, with a wall clock reporting 100 s elapsed after the first
candidate: the loop stops after a single candidate — the configured target of
2 is unmet and 29 grid entries remain, yet the run ends because the time
budget alone is exhausted (the target was forced to 0). -/
theorem C4_counterexample :
    cbossFit constEnv (fun _ => 100) 1 2 50 1 2 1 2 8 =
      Except.ok (okOr emptyFit (cbossFit constEnv (fun _ => 100) 1 2 50 1 2 1 2 8))
    ∧ (okOr emptyFit (cbossFit constEnv (fun _ => 100) 1 2 50 1 2 1 2 8)).numTried = 1
    ∧ (okOr emptyFit (cbossFit constEnv (fun _ => 100) 1 2 50 1 2 1 2 8)).gridRemaining
        = 29
    ∧ (1 : ℕ) < 2 := ⟨by decide, by decide, by decide, by decide⟩

/-- C4 (amended).  When a positive time budget is configured, `_fit` forces
the candidate target to zero before the loop starts, so the entire fit result
is independent of the configured `n_parameter_samples`: the loop stops as
soon as the elapsed time reaches the budget (or the grid empties), however
many candidates the configuration asked for. -/
theorem C4_time_budget_overrides_target (env : Env) (timeOracle : ℕ → ℚ)
    (nJobs : ℤ) (nps nps' maxSize : ℕ) (prop : ℚ) (minW : ℕ) (tl : ℚ)
    (nInst sLen : ℕ) (htl : 0 < tl) :
    cbossFit env timeOracle nJobs nps maxSize prop minW tl nInst sLen =
      cbossFit env timeOracle nJobs nps' maxSize prop minW tl nInst sLen := by
  have h60 : tl * 60 > 0 := mul_pos htl (by norm_num)
  simp only [cbossFit, if_pos h60]

/-- C4 witness: with a 1-minute budget, requesting 5 or 99 candidates yields
the same fit outcome. -/
theorem C4_time_budget_overrides_target_witness :
    cbossFit constEnv (fun _ => 0) 1 5 50 1 8 1 2 8 =
      cbossFit constEnv (fun _ => 0) 1 99 50 1 8 1 2 8 :=
  C4_time_budget_overrides_target constEnv (fun _ => 0) 1 5 99 50 1 8 1 2 8
    (by norm_num)

/-- C9 counterexample.  Same seed-derived environment, same configuration
(`time_limit_in_minutes = 1`), same data — only the machine's wall clock
differs (one run's elapsed time jumps past the budget after 2 candidates, the
other's after 1): the two fitted ensembles differ (2 retained members versus
1), so fit is not a function of configuration, data and seed alone. -/
theorem C9_counterexample :
    (okOr emptyFit (cbossFit constEnv (fun k => if 2 ≤ k then 100 else 0)
        1 250 50 1 8 1 2 8)).nEstimators = 2
    ∧ (okOr emptyFit (cbossFit constEnv (fun _ => 100)
        1 250 50 1 8 1 2 8)).nEstimators = 1
    ∧ (2 : ℕ) ≠ 1 := ⟨by decide, by decide, by decide⟩

lemma fitLoopGo_zero_time_oracle_irrelevant (env : Env) (nJobs : ℤ)
    (target maxSize subSize : ℕ) (to1 to2 : ℕ → ℚ)
    (h1 : ∀ k, 0 ≤ to1 k) (h2 : ∀ k, 0 ≤ to2 k) :
    ∀ (fuel : ℕ) (grid : List Param) (st : EnsState) (num : ℕ) (t1 t2 : ℚ),
      0 ≤ t1 → 0 ≤ t2 →
      fitLoopGo env to1 nJobs 0 target maxSize subSize fuel grid st num t1 =
        fitLoopGo env to2 nJobs 0 target maxSize subSize fuel grid st num t2 := by
  intro fuel
  induction fuel with
  | zero => intro grid st num t1 t2 _ _; rfl
  | succ fuel ih =>
    intro grid st num t1 t2 ht1 ht2
    by_cases hc : num < target ∧ grid ≠ []
    · have hg1 : (t1 < (0 : ℚ) ∨ num < target) ∧ grid ≠ [] := ⟨Or.inr hc.1, hc.2⟩
      have hg2 : (t2 < (0 : ℚ) ∨ num < target) ∧ grid ≠ [] := ⟨Or.inr hc.1, hc.2⟩
      rw [fitLoopGo, if_pos hg1, fitLoopGo, if_pos hg2]
      exact ih _ _ _ _ _ (h1 (num + 1)) (h2 (num + 1))
    · have hg1 : ¬ ((t1 < (0 : ℚ) ∨ num < target) ∧ grid ≠ []) := by
        rintro ⟨hor, hgrid⟩
        rcases hor with h | h
        · exact absurd h (not_lt.2 ht1)
        · exact hc ⟨h, hgrid⟩
      have hg2 : ¬ ((t2 < (0 : ℚ) ∨ num < target) ∧ grid ≠ []) := by
        rintro ⟨hor, hgrid⟩
        rcases hor with h | h
        · exact absurd h (not_lt.2 ht2)
        · exact hc ⟨h, hgrid⟩
      rw [fitLoopGo, if_neg hg1, fitLoopGo, if_neg hg2]

/-- C9 (amended).  With `time_limit_in_minutes = 0` (the count-based mode)
the fit result is a function of the seed-derived environment, the
configuration and the data alone: it is identical under any two (nonnegative)
wall-clock histories, so two independent runs with the same `random_state`
produce identical ensembles (and hence identical predictions).  With a
positive time budget this fails — see the counterexample. -/
theorem C9_deterministic_without_time_budget (env : Env) (to1 to2 : ℕ → ℚ)
    (nJobs : ℤ) (nps maxSize : ℕ) (prop : ℚ) (minW : ℕ) (nInst sLen : ℕ)
    (h1 : ∀ k, 0 ≤ to1 k) (h2 : ∀ k, 0 ≤ to2 k) :
    cbossFit env to1 nJobs nps maxSize prop minW 0 nInst sLen =
      cbossFit env to2 nJobs nps maxSize prop minW 0 nInst sLen := by
  simp only [cbossFit, zero_mul, gt_iff_lt, lt_irrefl, if_false]
  by_cases hv : (minW : ℤ) > pyInt ((sLen : ℚ) * prop) + 1
  · rw [if_pos hv, if_pos hv]
  · rw [if_neg hv, if_neg hv,
      fitLoopGo_zero_time_oracle_irrelevant env nJobs nps maxSize _ to1 to2 h1 h2
        _ _ _ _ 0 0 (le_refl 0) (le_refl 0)]

/-- C9 witness: two count-based runs under different wall clocks coincide. -/
theorem C9_deterministic_without_time_budget_witness :
    cbossFit constEnv (fun _ => 0) 1 1 50 1 8 0 2 8 =
      cbossFit constEnv (fun _ => 5) 1 1 50 1 8 0 2 8 :=
  C9_deterministic_without_time_budget constEnv (fun _ => 0) (fun _ => 5) 1 1 50 1 8
    2 8 (fun _ => le_refl 0) (fun _ => by norm_num)

/-- The invariant tying `self.weights` to `self.classifiers`: parallel lists
with each weight derived from its member's accuracy by the weight function. -/
def WeightInv (st : EnsState) : Prop :=
  st.weights.length = st.classifiers.length ∧
  ∀ k, k < st.weights.length →
    st.weights.getD k 0 = weightOf ((st.classifiers.getD k default).accuracy)

lemma getD_set_eq_ite {α : Type} (l : List α) (j k : ℕ) (a d : α) :
    (l.set j a).getD k d = if j = k ∧ j < l.length then a else l.getD k d := by
  rw [List.getD_eq_getElem?_getD, List.getElem?_set, List.getD_eq_getElem?_getD]
  by_cases hjk : j = k
  · subst hjk
    by_cases hjl : j < l.length
    · simp [hjl]
    · have : l[j]? = none := List.getElem?_eq_none (by omega)
      simp [hjl, this]
  · simp [hjk]

lemma ensembleStep_weightInv (maxSize num : ℕ) (st : EnsState) (m : Member)
    (h : WeightInv st) : WeightInv (ensembleStep maxSize num st m) := by
  obtain ⟨hlen, hw⟩ := h
  simp only [ensembleStep]
  by_cases hwarm : num < maxSize
  · rw [if_pos hwarm]
    refine ⟨by simp [hlen], ?_⟩
    intro k hk
    simp only [List.length_append, List.length_cons, List.length_nil] at hk
    by_cases hklt : k < st.weights.length
    · rw [List.getD_append _ _ _ _ hklt, List.getD_append _ _ _ _ (hlen ▸ hklt)]
      exact hw k hklt
    · have hk1 : k = st.weights.length := by omega
      subst hk1
      rw [List.getD_append_right _ _ _ _ (le_refl _), Nat.sub_self]
      rw [hlen, List.getD_append_right _ _ _ _ (le_refl _), Nat.sub_self]
      rfl
  · rw [if_neg hwarm]
    by_cases hacc : m.accuracy > st.lowestAcc
    · rw [if_pos hacc]
      simp only [pySet, hlen, List.length_set]
      by_cases hpos : 0 ≤ st.lowestIdx
      · rw [if_pos hpos, if_pos hpos]
        refine ⟨by simp [hlen], ?_⟩
        intro k hk
        rw [List.length_set] at hk
        rw [getD_set_eq_ite, getD_set_eq_ite]
        by_cases hj : st.lowestIdx.toNat = k ∧ st.lowestIdx.toNat < st.weights.length
        · rw [if_pos hj, if_pos (by omega : st.lowestIdx.toNat = k ∧
            st.lowestIdx.toNat < st.classifiers.length)]
        · rw [if_neg hj, if_neg (by omega : ¬ (st.lowestIdx.toNat = k ∧
            st.lowestIdx.toNat < st.classifiers.length))]
          exact hw k hk
      · rw [if_neg hpos, if_neg hpos]
        refine ⟨by simp [hlen], ?_⟩
        intro k hk
        rw [List.length_set] at hk
        rw [getD_set_eq_ite, getD_set_eq_ite, hlen]
        by_cases hj : st.classifiers.length - (-st.lowestIdx).toNat = k ∧
            st.classifiers.length - (-st.lowestIdx).toNat < st.classifiers.length
        · rw [if_pos hj, if_pos hj]
        · rw [if_neg hj, if_neg hj]
          exact hw k hk
    · rw [if_neg hacc]
      exact ⟨hlen, hw⟩

lemma fitLoopGo_weightInv (env : Env) (timeOracle : ℕ → ℚ) (nJobs : ℤ)
    (timeLimit : ℚ) (target maxSize subSize : ℕ) :
    ∀ (fuel : ℕ) (grid : List Param) (st : EnsState) (num : ℕ) (t : ℚ),
      WeightInv st →
      WeightInv (fitLoopGo env timeOracle nJobs timeLimit target maxSize subSize
        fuel grid st num t).1 := by
  intro fuel
  induction fuel with
  | zero => intro grid st num t h; exact h
  | succ fuel ih =>
    intro grid st num t h
    rw [fitLoopGo]
    by_cases hg : (t < timeLimit ∨ num < target) ∧ grid ≠ []
    · rw [if_pos hg]
      exact ih _ _ _ _ (ensembleStep_weightInv _ _ _ _ h)
    · rw [if_neg hg]
      exact h

/-- C5.  In every successful fit, the stored weights are in bijection with
the retained members, and each weight equals `accuracy ^ 4` when the member's
estimated accuracy is positive and the fixed floor `1e-9` otherwise (that is
exactly `weightOf`) — for members retained during warm-up and members
installed by replacement alike. -/
theorem C5_retained_weights (env : Env) (timeOracle : ℕ → ℚ) (nJobs : ℤ)
    (nps maxSize : ℕ) (prop : ℚ) (minW : ℕ) (tl : ℚ) (nInst sLen : ℕ)
    (r : FitResult)
    (h : cbossFit env timeOracle nJobs nps maxSize prop minW tl nInst sLen =
      Except.ok r) :
    r.weights.length = r.classifiers.length ∧
    ∀ k, k < r.weights.length →
      r.weights.getD k 0 = weightOf ((r.classifiers.getD k default).accuracy) := by
  rw [cbossFit] at h
  by_cases hv : (minW : ℤ) > pyInt ((sLen : ℚ) * prop) + 1
  · rw [if_pos hv] at h
    exact absurd h (by simp)
  · rw [if_neg hv] at h
    have hr := Except.ok.inj h
    have hinv := fitLoopGo_weightInv env timeOracle nJobs (tl * 60)
      (if tl * 60 > 0 then 0 else nps) maxSize
      (pyInt ((nInst : ℚ) * (7 / 10))).toNat
      (uniqueParameters minW (pyInt ((sLen : ℚ) * prop))
        (if pyInt ((((pyInt ((sLen : ℚ) * prop) : ℤ) : ℚ) - (minW : ℚ)) /
            ((sLen : ℚ) / 4)) < 1 then (1 : ℤ)
         else pyInt ((((pyInt ((sLen : ℚ) * prop) : ℤ) : ℚ) - (minW : ℚ)) /
            ((sLen : ℚ) / 4))).toNat).length
      (uniqueParameters minW (pyInt ((sLen : ℚ) * prop))
        (if pyInt ((((pyInt ((sLen : ℚ) * prop) : ℤ) : ℚ) - (minW : ℚ)) /
            ((sLen : ℚ) / 4)) < 1 then (1 : ℤ)
         else pyInt ((((pyInt ((sLen : ℚ) * prop) : ℤ) : ℚ) - (minW : ℚ)) /
            ((sLen : ℚ) / 4))).toNat)
      ⟨[], [], 1, 0⟩ 0 0 ⟨rfl, by intro k hk; simp at hk⟩
    rw [← hr]
    exact hinv

/-- C5 witness: a one-candidate fit retains one member with accuracy 1 and
stored weight `weightOf 1 = 1`. -/
theorem C5_retained_weights_witness :
    (okOr emptyFit (cbossFit constEnv (fun _ => 0) 1 1 50 1 2 0 3 8)).weights.getD 0 0
      = weightOf (((okOr emptyFit (cbossFit constEnv (fun _ => 0) 1 1 50 1 2 0 3 8)
          ).classifiers.getD 0 default).accuracy) :=
  (C5_retained_weights constEnv (fun _ => 0) 1 1 50 1 2 0 3 8
    (okOr emptyFit (cbossFit constEnv (fun _ => 0) 1 1 50 1 2 0 3 8))
    (by decide)).2 0 (by decide)

/-- Whether a fit outcome is the configuration error. -/
def fitFails : Except String FitResult → Bool
  | Except.error _ => true
  | Except.ok _ => false

/-- C8.  For a nonnegative window proportion (`int()` is then `⌊⌋`), fit
raises the configuration error if and only if
`min_window > ⌊series_length * max_win_len_prop⌋ + 1`; the error is the
`if`-guard before the search loop, so no candidate is ever trained.  In
particular, with series length 24 and proportion 1 (`max_window = 24`),
`min_window = 26` fails with the configuration error for every environment,
wall clock and remaining configuration. -/
theorem C8_min_window_validation (env : Env) (timeOracle : ℕ → ℚ) (nJobs : ℤ)
    (nps maxSize : ℕ) (prop : ℚ) (minW : ℕ) (tl : ℚ) (nInst sLen : ℕ)
    (hprop : 0 ≤ prop) :
    (fitFails (cbossFit env timeOracle nJobs nps maxSize prop minW tl nInst sLen)
        = true ↔ (minW : ℤ) > ⌊(sLen : ℚ) * prop⌋ + 1)
    ∧ cbossFit env timeOracle nJobs nps maxSize 1 26 tl nInst 24 =
        Except.error "Error in ContractableBOSS, min_window is bigger than max_window"
    := by
  have hmw : pyInt ((sLen : ℚ) * prop) = ⌊(sLen : ℚ) * prop⌋ :=
    if_pos (mul_nonneg (Nat.cast_nonneg sLen) hprop)
  constructor
  · rw [cbossFit]
    by_cases hv : (minW : ℤ) > pyInt ((sLen : ℚ) * prop) + 1
    · rw [if_pos hv]
      simp only [fitFails, true_iff]
      rw [hmw] at hv
      exact hv
    · rw [if_neg hv]
      simp only [fitFails]
      rw [hmw] at hv
      exact ⟨fun hfalse => absurd hfalse (by simp), fun hgt => absurd hgt hv⟩
  · rfl

/-- C8 witness: the concrete scenario `series_length = 24`,
`max_win_len_prop = 1`, `min_window = 26` fails. -/
theorem C8_min_window_validation_witness :
    fitFails (cbossFit constEnv (fun _ => 0) 1 1 50 1 26 0 3 24) = true :=
  (C8_min_window_validation constEnv (fun _ => 0) 1 1 50 1 26 0 3 24
    (by norm_num)).1.mpr (by decide)

/-- C10.  At the boundary `min_window = max_window + 1` (series length 24,
proportion 1, `min_window = 25`) fit raises no error: the window range
`range(25, 25, 1)` is empty, so the grid is empty, the loop runs zero
iterations, and the fitted ensemble has zero members, `weight_sum = 0` and
zero candidates tried.  `_predict_proba` then divides its all-zero class
buckets by this zero weight sum unguarded: in this rational model (where
`x / 0 = 0`; NumPy produces NaN) the resulting row is `[0, 0]`, whose entries
sum to `0 ≠ 1` — not a probability distribution. -/
theorem C10_boundary_empty_grid :
    cbossFit constEnv (fun _ => 0) 1 250 50 1 25 0 10 24 =
      Except.ok ⟨[], [], 0, 0, 0, 0⟩
    ∧ uniqueParameters 25 (pyInt ((24 : ℚ) * 1)) 1 = []
    ∧ predictProbaRow 2 [] []
        (okOr emptyFit (cbossFit constEnv (fun _ => 0) 1 250 50 1 25 0 10 24)).weightSum
        = [0, 0]
    ∧ (predictProbaRow 2 [] []
        (okOr emptyFit (cbossFit constEnv (fun _ => 0) 1 250 50 1 25 0 10 24)).weightSum
        ).sum ≠ 1 :=
  ⟨by decide, by decide, by decide, by decide⟩

end CBoss
